import Mathlib

/-!
Shallow embedding of the `MarsRover` environment from
`src/rl_exercises/environments.py`.

Modelling conventions: Python ints are `Int`, floats are `ℚ`,
lists/ndarrays are Lean lists.  Python/numpy single-axis indexing
(negative indices wrap once, out-of-range raises IndexError) is modelled
by `pyGet` returning `Option`.  A `step` call is a function of the
current mutable state, the action, and the uniform draw `u` of that
call; it returns the state after the call (mutations performed before an
exception persist, as in Python) together with either the returned tuple
or the raised error.
-/

/-- Python/numpy index resolution on one axis of length `len`: a negative
index wraps once; an out-of-range index yields `none` (IndexError). -/
def pyIdx (len : Nat) (i : Int) : Option Nat :=
  let j : Int := if i < 0 then i + len else i
  if 0 ≤ j ∧ j < len then some j.toNat else none

/-- Indexing `l[i]` with Python semantics (negative wraparound, IndexError
as `none`). -/
def pyGet {α : Type} (l : List α) (i : Int) : Option α :=
  (pyIdx l.length i).bind fun k => l.get? k

/-- Construction-time data of `MarsRover.__init__` (environments.py lines
43-77): the transition-probability table `P` (an n×2 matrix), the reward
list `R`, and the episode horizon.  The rng is modelled separately as the
stream of uniform draws it produces. -/
structure MarsRover where
  transition_probabilities : List (List ℚ)
  rewards : List ℚ
  horizon : Int
deriving DecidableEq, Repr

/-- The two mutable episode counters of the engine. -/
structure EngineState where
  position : Int
  current_steps : Int
deriving DecidableEq, Repr

/-- Errors `step` can raise: numpy/list IndexError from an out-of-range
lookup, or the RuntimeError of the invalid-action branch (line 220). -/
inductive StepErr where
  | indexError
  | invalidActionError
deriving DecidableEq, Repr

/-- The 5-tuple returned by `step` (info is always the empty dict and is
omitted). -/
structure StepOut where
  observation : Int
  reward : ℚ
  terminated : Bool
  truncated : Bool
deriving DecidableEq, Repr

instance {ε α : Type} [DecidableEq ε] [DecidableEq α] : DecidableEq (Except ε α) :=
  fun a b =>
  match a, b with
  | .error e, .error f =>
      decidable_of_iff (e = f) ⟨fun h => by rw [h], fun h => by injection h⟩
  | .error _, .ok _ => isFalse fun h => Except.noConfusion h
  | .ok _, .error _ => isFalse fun h => Except.noConfusion h
  | .ok x, .ok y =>
      decidable_of_iff (x = y) ⟨fun h => by rw [h], fun h => by injection h⟩

/-- State of the engine right after `__init__`: `current_steps = 0`,
`position = 2` (lines 63-65). -/
def initState : EngineState :=
  { position := 2, current_steps := 0 }

/-- `MarsRover.get_next_state` (lines 96-119): deterministic movement,
`delta = -1` for action 0 and `+1` otherwise, clamped to
`[0, len(S) - 1]`.  `n` is the length of the state array `S`. -/
def get_next_state (s a : Int) (n : Nat) : Int :=
  let delta_s : Int := if a = 0 then -1 else 1
  let s_next : Int := s + delta_s
  max (min s_next ((n : Int) - 1)) 0

/-- `MarsRover.get_transition_matrix` (lines 121-163) with `S = range n`,
`A = range 2` as built in `__init__` (lines 71-74): starting from zeros,
`T[s][a][s2] = P[s][a]` exactly when `s2` is the deterministic next state
of `(s, a)`.  The flip-branch cell is never populated.  The `P` lookup is
totalised with default `0`; the source would raise instead, and every
theorem below assumes a well-shaped `P`, under which the default is
unreachable. -/
def get_transition_matrix (n : Nat) (P : List (List ℚ)) : List (List (List ℚ)) :=
  (List.range n).map fun (s : Nat) =>
    (List.range 2).map fun (a : Nat) =>
      (List.range n).map fun (s2 : Nat) =>
        if (s2 : Int) = get_next_state (s : Int) (a : Int) n then
          ((pyGet ((pyGet P (s : Int)).getD []) (a : Int)).getD 0)
        else 0

/-- Sum of `T[s][a][·]` over all destination states. -/
def rowSumT (T : List (List (List ℚ))) (s a : Nat) : ℚ :=
  ((((T.get? s).getD []).get? a).getD []).sum

/-- `MarsRover.reset` (lines 165-188): sets `current_steps := 0` and
`position := 2` whatever the previous state, ignores `seed` and
`options`, and returns the new position together with an empty info
mapping. -/
def reset (seed : Option Int) (options : Option (List (String × ℚ)))
    (st : EngineState) : EngineState × (Int × List (String × ℚ)) :=
  let st2 : EngineState := { position := 2, current_steps := 0 }
  (st2, (st2.position, []))

/-- Lines 222-230 of `step`: reward lookup at the already-updated
position, `terminated := false`, `truncated := current_steps >= horizon`.
On an IndexError of the reward lookup the mutated state persists. -/
def finishStep (env : MarsRover) (steps2 pos2 : Int) :
    EngineState × Except StepErr StepOut :=
  match pyGet env.rewards pos2 with
  | none =>
      ({ position := pos2, current_steps := steps2 }, Except.error StepErr.indexError)
  | some r =>
      ({ position := pos2, current_steps := steps2 },
       Except.ok { observation := pos2, reward := r, terminated := false,
                   truncated := decide (env.horizon ≤ steps2) })

/-- `MarsRover.step` (lines 190-230), line by line: increment
`current_steps`; look up `P[position][action]` (IndexError propagates,
with the incremented counter already stored); flip the action when
`u ≥ p`; move with the bounds hardcoded in the source (`position > 0`
for left, `position < 4` for right); otherwise raise the invalid-action
RuntimeError; finally fetch the reward and build the return tuple. -/
def step (env : MarsRover) (st : EngineState) (action : Int) (u : ℚ) :
    EngineState × Except StepErr StepOut :=
  match pyGet env.transition_probabilities st.position with
  | none =>
      ({ st with current_steps := st.current_steps + 1 },
       Except.error StepErr.indexError)
  | some row =>
    match pyGet row action with
    | none =>
        ({ st with current_steps := st.current_steps + 1 },
         Except.error StepErr.indexError)
    | some p =>
      if (if u < p then action else 1 - action) = 0 then
        finishStep env (st.current_steps + 1)
          (if st.position > 0 then st.position - 1 else st.position)
      else if (if u < p then action else 1 - action) = 1 then
        finishStep env (st.current_steps + 1)
          (if st.position < 4 then st.position + 1 else st.position)
      else
        ({ st with current_steps := st.current_steps + 1 },
         Except.error StepErr.invalidActionError)

/-- Feed a list of actions to the engine, drawing the `u` of call number
`i` from `stream i`; collects every call's outcome (Python would stop at
the first raise; on valid runs all outcomes are `ok`). -/
def run (env : MarsRover) (stream : Nat → ℚ) :
    EngineState → Nat → List Int → List (Except StepErr StepOut)
  | _, _, [] => []
  | st, i, a :: rest =>
      (step env st a (stream i)).2 ::
        run env stream (step env st a (stream i)).1 (i + 1) rest

/-- The default construction of `__init__`: `P = np.ones((5, 2))`,
`rewards = [1, 0, 0, 0, 10]`, `horizon = 10`. -/
def defaultRover : MarsRover :=
  { transition_probabilities := [[1, 1], [1, 1], [1, 1], [1, 1], [1, 1]]
    rewards := [1, 0, 0, 0, 10]
    horizon := 10 }

/-- A construction with n = 3: all-ones 3×2 `P` and a length-3 reward
list. -/
def rover3 : MarsRover :=
  { transition_probabilities := [[1, 1], [1, 1], [1, 1]]
    rewards := [0, 0, 0]
    horizon := 10 }

/-- A construction with n = 6: all-ones 6×2 `P` and a length-6 reward
list. -/
def rover6 : MarsRover :=
  { transition_probabilities := [[1, 1], [1, 1], [1, 1], [1, 1], [1, 1], [1, 1]]
    rewards := [0, 0, 0, 0, 0, 0]
    horizon := 10 }

/-- Shape constraints under which a default-like engine never raises:
`len(rewards) = len(P) ≥ 5` and every row of `P` has the two action
entries. -/
def WellShaped (env : MarsRover) : Prop :=
  env.rewards.length = env.transition_probabilities.length ∧
  5 ≤ env.transition_probabilities.length ∧
  ∀ row ∈ env.transition_probabilities, row.length = 2


theorem pyGet_nonneg {α : Type} (l : List α) (i : Int) (h0 : 0 ≤ i)
    (h1 : i < (l.length : Int)) : pyGet l i = l.get? i.toNat := by
  unfold pyGet pyIdx
  have hneg : ¬ i < 0 := not_lt.mpr h0
  simp only [hneg, if_false, if_pos (And.intro h0 h1), Option.bind_eq_bind,
    Option.some_bind]

theorem pyGet_mem {α : Type} (l : List α) (i : Int) (h0 : 0 ≤ i)
    (h1 : i < (l.length : Int)) : ∃ x, pyGet l i = some x ∧ x ∈ l := by
  rw [pyGet_nonneg l i h0 h1]
  have hlt : i.toNat < l.length := by omega
  exact ⟨l.get ⟨i.toNat, hlt⟩, List.get?_eq_get hlt, List.get_mem _ _ _⟩

theorem pyGet_none_of_ge {α : Type} (l : List α) (i : Int)
    (h : (l.length : Int) ≤ i) : pyGet l i = none := by
  unfold pyGet pyIdx
  have h0 : 0 ≤ i := le_trans (Int.natCast_nonneg _) h
  have hneg : ¬ i < 0 := not_lt.mpr h0
  have hcond : ¬ (0 ≤ i ∧ i < (l.length : Int)) := fun hc => absurd hc.2 (not_lt.mpr h)
  simp only [hneg, if_false, hcond, Option.bind_eq_bind]
  rfl

theorem step_current_steps (env : MarsRover) (st : EngineState) (a : Int) (u : ℚ) :
    ((step env st a u).1).current_steps = st.current_steps + 1 := by
  unfold step finishStep
  cases pyGet env.transition_probabilities st.position with
  | none => rfl
  | some row =>
    dsimp only
    cases pyGet row a with
    | none => rfl
    | some p =>
      dsimp only
      by_cases hact : (if u < p then a else 1 - a) = 0
      · rw [if_pos hact]
        cases pyGet env.rewards (if st.position > 0 then st.position - 1 else st.position) <;> rfl
      · rw [if_neg hact]
        by_cases hact1 : (if u < p then a else 1 - a) = 1
        · rw [if_pos hact1]
          cases pyGet env.rewards (if st.position < 4 then st.position + 1 else st.position) <;> rfl
        · rw [if_neg hact1]

theorem step_ok_inv (env : MarsRover) (st : EngineState) (a : Int) (u : ℚ) (out : StepOut)
    (h : (step env st a u).2 = Except.ok out) :
    (step env st a u).1 =
      { position := out.observation, current_steps := st.current_steps + 1 } ∧
    pyGet env.rewards out.observation = some out.reward ∧
    out.terminated = false ∧
    (out.truncated = true ↔ env.horizon ≤ st.current_steps + 1) := by
  unfold step finishStep at h ⊢
  cases hrow : pyGet env.transition_probabilities st.position with
  | none => rw [hrow] at h; exact absurd h (by simp)
  | some row =>
    rw [hrow] at h
    dsimp only at h ⊢
    cases hp : pyGet row a with
    | none => rw [hp] at h; exact absurd h (by simp)
    | some p =>
      rw [hp] at h
      dsimp only at h ⊢
      by_cases hact : (if u < p then a else 1 - a) = 0
      · rw [if_pos hact] at h ⊢
        cases hr : pyGet env.rewards (if st.position > 0 then st.position - 1 else st.position) with
        | none => rw [hr] at h; exact absurd h (by simp)
        | some r =>
          rw [hr] at h
          injection h with h2
          subst h2
          refine ⟨rfl, hr, rfl, ?_⟩
          simp only [decide_eq_true_eq]
      · rw [if_neg hact] at h ⊢
        by_cases hact1 : (if u < p then a else 1 - a) = 1
        · rw [if_pos hact1] at h ⊢
          cases hr : pyGet env.rewards (if st.position < 4 then st.position + 1 else st.position) with
          | none => rw [hr] at h; exact absurd h (by simp)
          | some r =>
            rw [hr] at h
            injection h with h2
            subst h2
            refine ⟨rfl, hr, rfl, ?_⟩
            simp only [decide_eq_true_eq]
        · rw [if_neg hact1] at h
          exact absurd h (by simp)

theorem step_ok_bounds (env : MarsRover) (hW : WellShaped env) (st : EngineState)
    (hp0 : 0 ≤ st.position) (hp4 : st.position ≤ 4) (a : Int)
    (ha : a = 0 ∨ a = 1) (u : ℚ) :
    ∃ out : StepOut, (step env st a u).2 = Except.ok out ∧
      0 ≤ (step env st a u).1.position ∧ (step env st a u).1.position ≤ 4 := by
  obtain ⟨hlen, h5, hrows⟩ := hW
  have hplen : st.position < (env.transition_probabilities.length : Int) := by omega
  obtain ⟨row, hrow, hmem⟩ := pyGet_mem env.transition_probabilities st.position hp0 hplen
  have hrl : row.length = 2 := hrows row hmem
  have ha0 : 0 ≤ a := by rcases ha with rfl | rfl <;> norm_num
  have hpa : a < (row.length : Int) := by rw [hrl]; rcases ha with rfl | rfl <;> norm_num
  obtain ⟨p, hpeq, -⟩ := pyGet_mem row a ha0 hpa
  unfold step finishStep
  rw [hrow]
  dsimp only
  rw [hpeq]
  dsimp only
  have hact : (if u < p then a else 1 - a) = 0 ∨ (if u < p then a else 1 - a) = 1 := by
    split <;> rcases ha with rfl | rfl <;> norm_num
  rcases hact with hact | hact
  · rw [if_pos hact]
    have h0 : 0 ≤ (if st.position > 0 then st.position - 1 else st.position) ∧
        (if st.position > 0 then st.position - 1 else st.position) ≤ 4 := by
      split <;> omega
    have hlt : (if st.position > 0 then st.position - 1 else st.position) <
        (env.rewards.length : Int) := by
      rw [hlen]; omega
    obtain ⟨r, hre, -⟩ := pyGet_mem env.rewards _ h0.1 hlt
    rw [hre]
    exact ⟨_, rfl, h0.1, h0.2⟩
  · rw [if_neg (by omega : ¬ (if u < p then a else 1 - a) = 0), if_pos hact]
    have h0 : 0 ≤ (if st.position < 4 then st.position + 1 else st.position) ∧
        (if st.position < 4 then st.position + 1 else st.position) ≤ 4 := by
      split <;> omega
    have hlt : (if st.position < 4 then st.position + 1 else st.position) <
        (env.rewards.length : Int) := by
      rw [hlen]; omega
    obtain ⟨r, hre, -⟩ := pyGet_mem env.rewards _ h0.1 hlt
    rw [hre]
    exact ⟨_, rfl, h0.1, h0.2⟩

theorem run_get (env : MarsRover) (hW : WellShaped env) (stream : Nat → ℚ)
    (acts : List Int) :
    ∀ (st : EngineState) (i : Nat),
      (∀ a ∈ acts, a = 0 ∨ a = 1) → 0 ≤ st.position → st.position ≤ 4 →
      ∀ j, j < acts.length →
        ∃ out : StepOut, (run env stream st i acts).get? j = some (Except.ok out) ∧
          (out.truncated = true ↔ env.horizon ≤ st.current_steps + ((j : Int) + 1)) := by
  induction acts with
  | nil => intro st i _ _ _ j hj; simp at hj
  | cons a rest ih =>
    intro st i hacts hp0 hp4 j hj
    have ha : a = 0 ∨ a = 1 := hacts a (List.mem_cons_self _ _)
    obtain ⟨out1, hok, hb0, hb4⟩ := step_ok_bounds env hW st hp0 hp4 a ha (stream i)
    cases j with
    | zero =>
      refine ⟨out1, ?_, ?_⟩
      · simp [run, hok]
      · have h2 := (step_ok_inv env st a (stream i) out1 hok).2.2.2
        rw [h2]
        omega
    | succ j2 =>
      have hsteps := step_current_steps env st a (stream i)
      obtain ⟨out, hget, htr⟩ :=
        ih (step env st a (stream i)).1 (i + 1)
          (fun b hb => hacts b (List.mem_cons_of_mem _ hb)) hb0 hb4 j2
          (by simpa using hj)
      refine ⟨out, ?_, ?_⟩
      · simpa [run] using hget
      · rw [htr, hsteps]
        omega

theorem get_next_state_bounds (s a : Int) (n : ℕ) (hs : 0 ≤ s) (hn : s < (n : Int)) :
    0 ≤ get_next_state s a n ∧ get_next_state s a n < (n : Int) := by
  simp only [get_next_state]
  constructor
  · exact le_max_right _ _
  · omega

theorem pyGet_natCast {α : Type} (l : List α) (s : ℕ) (h : s < l.length) :
    pyGet l (s : Int) = l.get? s := by
  rw [pyGet_nonneg l (s : Int) (Int.natCast_nonneg _) (by exact_mod_cast h)]
  simp

theorem sum_single_range (m : ℕ) (k : Int) (v : ℚ) (h0 : 0 ≤ k) (h1 : k < (m : Int)) :
    ((List.range m).map fun (s2 : ℕ) => if (s2 : Int) = k then v else 0).sum = v := by
  induction m with
  | zero => exfalso; omega
  | succ m ih =>
    rw [List.range_succ, List.map_append, List.sum_append]
    by_cases hk : (m : Int) = k
    · have hall : ((List.range m).map fun (s2 : ℕ) => if (s2 : Int) = k then v else 0).sum = 0 := by
        apply List.sum_eq_zero
        intro x hx
        obtain ⟨s2, hs2, rfl⟩ := List.mem_map.mp hx
        have hlt : s2 < m := List.mem_range.mp hs2
        rw [if_neg (by omega)]
      rw [hall, List.map_singleton, List.sum_singleton, if_pos hk, zero_add]
    · have hk2 : k < (m : Int) := by omega
      rw [ih hk2, List.map_singleton, List.sum_singleton, if_neg hk, add_zero]

theorem trans_matrix_rowsum (n : ℕ) (P : List (List ℚ)) (s a : ℕ) (row : List ℚ) (q : ℚ)
    (hP : P.length = n) (hs : s < n) (ha : a < 2)
    (hrow : P.get? s = some row) (hq : row.get? a = some q) :
    rowSumT (get_transition_matrix n P) s a = q := by
  unfold rowSumT get_transition_matrix
  rw [List.get?_map, List.get?_range hs]
  simp only [Option.map_some', Option.getD_some]
  rw [List.get?_map, List.get?_range ha]
  simp only [Option.map_some', Option.getD_some]
  have h1 : pyGet P (s : Int) = some row := by
    rw [pyGet_natCast P s (by omega), hrow]
  have h2 : pyGet row (a : Int) = some q := by
    have halen : a < row.length := by
      by_contra hcon
      rw [List.get?_eq_none.mpr (by omega)] at hq
      exact Option.noConfusion hq
    rw [pyGet_natCast row a halen, hq]
  rw [h1]
  simp only [Option.getD_some]
  rw [h2]
  simp only [Option.getD_some]
  have hb := get_next_state_bounds (s : Int) (a : Int) n (Int.natCast_nonneg _) (by exact_mod_cast hs)
  exact sum_single_range n (get_next_state (s : Int) (a : Int) n) q hb.1 hb.2

/-- C1: the claim says the movement rule clamps to `[0, n-1]` for every
construction size `n`, so that stepping right from state `n-1` keeps the
rover there.  The code instead hardcodes the bound `position < 4`
(line 217): with `n = 3` the rover at the reachable reset position `2 = n-1`
moves to `3`, outside the state space `[0, 2]`, and the subsequent
`rewards[3]` lookup raises IndexError with the escaped position stored. -/
theorem C1_step_escapes_state_space :
    step rover3 initState 1 0 =
      ({ position := 3, current_steps := 1 }, Except.error StepErr.indexError) ∧
    ¬ ((3 : Int) ≤ (rover3.transition_probabilities.length : Int) - 1) := by
  decide

/-- C2: the claim says an action outside `{0,1}` raises InvalidAction and
mutates nothing.  The code increments `current_steps` first (line 207) and,
for `action = 2`, raises IndexError from the `P[position][action]` lookup
(line 208), never reaching the invalid-action branch: the state after the
failing call has `current_steps = 1`, and the error is not the
invalid-action fault. -/
theorem C2_invalid_action_mutates_and_index_errors :
    step defaultRover initState 2 0 =
      ({ position := 2, current_steps := 1 }, Except.error StepErr.indexError) ∧
    StepErr.indexError ≠ StepErr.invalidActionError := by
  decide

/-- C3 counterexample: at the valid construction `n = 1`,
`P = [[1/2, 1/2]]` (entries in `[0,1]`), the transition tensor row
`T[0,0,·]` sums to `P[0,0] = 1/2`, not to `P[0,0] + (1 - P[0,0]) = 1` as
claimed: the builder only populates the intended-action cell. -/
theorem C3_counterexample_rowsum :
    rowSumT (get_transition_matrix 1 [[1/2, 1/2]]) 0 0 = 1/2 ∧
    ¬ ((1 : ℚ)/2 = 1/2 + (1 - 1/2)) := by
  constructor
  · norm_num [rowSumT, get_transition_matrix, get_next_state, pyGet, pyIdx, List.range_succ]
  · norm_num

/-- C3 amended: for every well-shaped `P` (an n×2 matrix) and valid
`(s, a)`, the sum over destinations of `T[s][a][·]` equals the single
recorded entry `P[s][a]` — the flip-branch probability `1 - P[s,a]` is
not included. -/
theorem C3_rowsum_eq_entry (n : ℕ) (P : List (List ℚ)) (s a : ℕ) (row : List ℚ) (q : ℚ)
    (hP : P.length = n) (hs : s < n) (ha : a < 2)
    (hrow : P.get? s = some row) (hq : row.get? a = some q) :
    rowSumT (get_transition_matrix n P) s a = q := by
  unfold rowSumT get_transition_matrix
  rw [List.get?_map, List.get?_range hs]
  simp only [Option.map_some', Option.getD_some]
  rw [List.get?_map, List.get?_range ha]
  simp only [Option.map_some', Option.getD_some]
  have h1 : pyGet P (s : Int) = some row := by
    rw [pyGet_natCast P s (by omega), hrow]
  have h2 : pyGet row (a : Int) = some q := by
    have halen : a < row.length := by
      by_contra hcon
      rw [List.get?_eq_none.mpr (by omega)] at hq
      exact Option.noConfusion hq
    rw [pyGet_natCast row a halen, hq]
  rw [h1]
  simp only [Option.getD_some]
  rw [h2]
  simp only [Option.getD_some]
  have hb := get_next_state_bounds (s : Int) (a : Int) n (Int.natCast_nonneg _)
    (by exact_mod_cast hs)
  exact sum_single_range n (get_next_state (s : Int) (a : Int) n) q hb.1 hb.2

/-- C3 witness: at the default 5×2 all-ones table, `T[2][1][·]` sums to
`P[2][1] = 1`. -/
theorem C3_rowsum_witness :
    rowSumT (get_transition_matrix 5 defaultRover.transition_probabilities) 2 1 = 1 :=
  C3_rowsum_eq_entry 5 defaultRover.transition_probabilities 2 1 [1, 1] 1
    (by decide) (by decide) (by decide) (by decide) (by decide)

/-- C4: the claim says that with all-ones `P`, `step(1)` from any
`s < n-1` yields `s+1` for every construction.  With `n = 6` and the
rover at `s = 4 < 5 = n-1`, the hardcoded `position < 4` bound (line 217)
keeps the position at `4` instead of moving to `5`. -/
theorem C4_right_move_blocked_at_four :
    step rover6 { position := 4, current_steps := 0 } 1 0 =
      ({ position := 4, current_steps := 1 },
       Except.ok { observation := 4, reward := 0, terminated := false, truncated := false }) ∧
    (4 : Int) < (rover6.transition_probabilities.length : Int) - 1 ∧
    (4 : Int) ≠ 4 + 1 := by
  decide

/-- C5: every `step` call increments `current_steps` by exactly one (even
a failing one); a returning call reports `terminated = false` and
`truncated` true exactly when the incremented counter reaches the
horizon; and over any sequence of valid-action calls after reset on a
well-shaped engine, call number `j+1` returns with `truncated` true iff
`horizon ≤ j+1`, so `truncated` first becomes true on the horizon-th
call. -/
theorem C5_step_counter_and_truncation :
    (∀ (env : MarsRover) (st : EngineState) (a : Int) (u : ℚ),
        ((step env st a u).1).current_steps = st.current_steps + 1) ∧
    (∀ (env : MarsRover) (st : EngineState) (a : Int) (u : ℚ) (out : StepOut),
        (step env st a u).2 = Except.ok out →
        out.terminated = false ∧ (out.truncated = true ↔ env.horizon ≤ st.current_steps + 1)) ∧
    (∀ (env : MarsRover) (stream : Nat → ℚ) (acts : List Int) (j : Nat),
        WellShaped env → (∀ a ∈ acts, a = 0 ∨ a = 1) → j < acts.length →
        ∃ out : StepOut, (run env stream initState 0 acts).get? j = some (Except.ok out) ∧
          (out.truncated = true ↔ env.horizon ≤ (j : Int) + 1)) := by
  refine ⟨step_current_steps, ?_, ?_⟩
  · intro env st a u out h
    have h2 := step_ok_inv env st a u out h
    exact ⟨h2.2.2.1, h2.2.2.2⟩
  · intro env stream acts j hW hacts hj
    obtain ⟨out, hget, htr⟩ :=
      run_get env hW stream acts initState 0 hacts (by norm_num [initState])
        (by norm_num [initState]) j hj
    refine ⟨out, hget, ?_⟩
    rw [htr]
    simp only [initState]
    omega

/-- C5 witness: on the default engine, one step from reset increments the
counter to 1, and the first call of a one-action run returns untruncated
(horizon 10 > 1). -/
theorem C5_witness :
    ((step defaultRover initState 1 0).1).current_steps = initState.current_steps + 1 ∧
    (∃ out : StepOut, (run defaultRover (fun _ => 0) initState 0 [1]).get? 0 =
        some (Except.ok out) ∧
      (out.truncated = true ↔ defaultRover.horizon ≤ (0 : Int) + 1)) :=
  ⟨C5_step_counter_and_truncation.1 defaultRover initState 1 0,
   C5_step_counter_and_truncation.2.2 defaultRover (fun _ => 0) [1] 0
     ⟨rfl, by decide, by decide⟩ (by decide) (by norm_num)⟩

/-- C6: whenever `step` returns, the observation is the updated position
and the reward is exactly the reward-table entry at that arrival
position. -/
theorem C6_reward_of_arrival (env : MarsRover) (st : EngineState) (a : Int) (u : ℚ)
    (out : StepOut) (h : (step env st a u).2 = Except.ok out) :
    out.observation = ((step env st a u).1).position ∧
    pyGet env.rewards out.observation = some out.reward := by
  have h2 := step_ok_inv env st a u out h
  constructor
  · rw [h2.1]
  · exact h2.2.1

/-- C6 witness: the default engine stepped right from reset lands on 3
and returns `R[3] = 0`. -/
theorem C6_witness :
    (⟨3, 0, false, false⟩ : StepOut).observation =
      ((step defaultRover initState 1 0).1).position ∧
    pyGet defaultRover.rewards (⟨3, 0, false, false⟩ : StepOut).observation =
      some (⟨3, 0, false, false⟩ : StepOut).reward :=
  C6_reward_of_arrival defaultRover initState 1 0 ⟨3, 0, false, false⟩ (by decide)

/-- C7: `reset` sets `current_steps` to 0 and `position` to the fixed
start index 2 from any state, and returns `(2, {})`; the `seed` and
`options` arguments have no effect on the result. -/
theorem C7_reset_spec (seed : Option Int) (options : Option (List (String × ℚ)))
    (st : EngineState) :
    reset seed options st = ({ position := 2, current_steps := 0 }, (2, [])) := rfl

/-- C8: two freshly constructed engines with equal construction arguments
and equal random streams (numpy's `default_rng` is a deterministic
function of the seed, so a shared seed yields equal streams), fed the
same action sequence, produce identical sequences of step outcomes
(observations and rewards included). -/
theorem C8_seed_determinism (e1 e2 : MarsRover) (s1 s2 : Nat → ℚ) (acts : List Int)
    (hP : e1.transition_probabilities = e2.transition_probabilities)
    (hR : e1.rewards = e2.rewards) (hH : e1.horizon = e2.horizon)
    (hs : ∀ i, s1 i = s2 i) :
    run e1 s1 initState 0 acts = run e2 s2 initState 0 acts := by
  obtain ⟨P1, R1, H1⟩ := e1
  obtain ⟨P2, R2, H2⟩ := e2
  have h1 : P1 = P2 := hP
  have h2 : R1 = R2 := hR
  have h3 : H1 = H2 := hH
  subst h1
  subst h2
  subst h3
  have h4 : s1 = s2 := funext hs
  subst h4
  rfl

/-- C8 witness: the determinism theorem applied to two copies of the
default construction with the same stream and actions. -/
theorem C8_witness :
    run defaultRover (fun _ => (0 : ℚ)) initState 0 [0, 1] =
      run defaultRover (fun _ => (0 : ℚ)) initState 0 [0, 1] :=
  C8_seed_determinism defaultRover defaultRover (fun _ => (0 : ℚ)) (fun _ => (0 : ℚ))
    [0, 1] rfl rfl rfl (fun _ => rfl)

/-- C9: the deterministic movement rule is idempotent at the boundaries:
from state 0, action 0 stays at 0; from state `n-1`, action 1 stays at
`n-1`. -/
theorem C9_boundary_idempotent (n : ℕ) (h : 1 ≤ n) :
    get_next_state 0 0 n = 0 ∧ get_next_state ((n : Int) - 1) 1 n = (n : Int) - 1 := by
  simp only [get_next_state]
  norm_num
  omega

/-- C9 witness: at `n = 5`, left from 0 stays at 0 and right from 4 stays
at 4. -/
theorem C9_witness :
    get_next_state 0 0 5 = 0 ∧ get_next_state ((5 : Int) - 1) 1 5 = (5 : Int) - 1 :=
  C9_boundary_idempotent 5 (by norm_num)

/-- C10: for any action `a ≥ 2` at a position whose probability row
exists (an n×2 table), `step` raises IndexError from the
`P[position][a]` lookup, after `current_steps` was already incremented
and before the invalid-action branch could run — so such actions never
produce the documented invalid-action fault. -/
theorem C10_invalid_action_index_error (env : MarsRover) (st : EngineState) (a : Int)
    (u : ℚ) (row : List ℚ)
    (hrow : pyGet env.transition_probabilities st.position = some row)
    (hlen : row.length = 2) (ha : 2 ≤ a) :
    step env st a u =
      ({ st with current_steps := st.current_steps + 1 }, Except.error StepErr.indexError) ∧
    StepErr.indexError ≠ StepErr.invalidActionError := by
  constructor
  · unfold step
    rw [hrow]
    dsimp only
    rw [pyGet_none_of_ge row a (by rw [hlen]; omega)]
  · intro hcon
    exact StepErr.noConfusion hcon

/-- C10 witness: action 2 on the default engine at reset raises
IndexError with the counter already incremented. -/
theorem C10_witness :
    (step defaultRover initState 2 0 =
      ({ initState with current_steps := initState.current_steps + 1 },
       Except.error StepErr.indexError)) ∧
    StepErr.indexError ≠ StepErr.invalidActionError :=
  C10_invalid_action_index_error defaultRover initState 2 0 [1, 1]
    (by decide) rfl (by norm_num)
